import Mathlib

/-!
Shallow embedding of the coupon validation engine of
`internal/coupon/validator.go` (the Bloom-filter variant): the
`Validator` with its LRU cache, `LoadFromFiles`, `buildBloomFilter`,
`IsValid`, `searchFileForCoupon` and `GetStats`.

Modelling conventions:
* The file system is an association list from paths to the list of
  text lines of the file; `os.Open`/`os.Stat` succeed exactly when the
  path is present.
* A `context.Context` is modelled by a single `Bool` saying whether the
  context is already cancelled; `ctx.Done()` fires iff that flag is set.
* The Go functions `strings.ToUpper` and `strings.TrimSpace` are modelled on the
  ASCII fragment with `Char.toUpper` / `Char.isWhitespace`.
* `len(s)` in Go is the UTF-8 byte length, modelled by
  `String.utf8ByteSize`.
* Stateful methods take the receiver and return the updated receiver;
  a method that performs no write returns it unchanged.
* The Bloom filter of github.com/bits-and-blooms/bloom (not part of
  the sources of this repository) is modelled from the spec: a membership
  filter with no false negatives whose false positives are an arbitrary
  function `extra`, universally quantified in the theorems.
* Goroutine result collection is linearized in index order; the
  decision values proved below do not depend on the collection order
  because the quorum count is symmetric.
-/

namespace KartChallenge

/-- Go `strings.ToUpper` (ASCII fragment): uppercase every character. -/
def stringsToUpper (s : String) : String :=
  ⟨s.data.map Char.toUpper⟩

/-- Go `strings.TrimSpace` (ASCII fragment): drop leading and trailing
whitespace characters. -/
def stringsTrimSpace (s : String) : String :=
  ⟨((s.data.dropWhile Char.isWhitespace).reverse.dropWhile Char.isWhitespace).reverse⟩

/-- The file system: paths associated to file contents (lists of lines). -/
abbrev FS := List (String × List String)

/-- Modelled from the spec: `bloom.BloomFilter` (external library
github.com/bits-and-blooms/bloom/v3, not in the sources).  The
spec notion of a Membership Filter is a probabilistic set with no false negatives and
an arbitrary set of false positives, here the function `extra`. -/
structure BloomFilter where
  added : List String
  extra : String → Bool

/-- Modelled from the spec: `bloom.NewWithEstimates` returns an empty
filter; the capacity/error-rate parameters only size the bit array and
are irrelevant to membership behaviour, which `extra` abstracts. -/
def bloomNewWithEstimates (extra : String → Bool) : BloomFilter :=
  ⟨[], extra⟩

/-- Modelled from the spec: `filter.AddString` inserts a key. -/
def BloomFilter.AddString (f : BloomFilter) (s : String) : BloomFilter :=
  { f with added := s :: f.added }

/-- Modelled from the spec: `filter.TestString` answers true for every
inserted key (no false negatives) and possibly for extra keys. -/
def BloomFilter.TestString (f : BloomFilter) (s : String) : Bool :=
  f.added.contains s || f.extra s

/-- The `cacheEntry` struct of validator.go. -/
structure cacheEntry where
  key : String
  valid : Bool
deriving DecidableEq

/-- The `lruCache` struct of validator.go: the `order` list is the recency list,
most recently used first; the Go `items` map is the derived
key-to-element index and is not represented separately. -/
structure lruCache where
  capacity : Nat
  order : List cacheEntry
deriving DecidableEq

/-- Go `newLRUCache`. -/
def newLRUCache (capacity : Nat) : lruCache :=
  ⟨capacity, []⟩

/-- Method `lruCache.Get`: on a hit the element moves to the front of the
recency list and `(value, true)` is returned; on a miss the cache is
untouched and `(false, false)` is returned. -/
def lruCache.Get (c : lruCache) (key : String) : (Bool × Bool) × lruCache :=
  match c.order.find? (fun e => e.key == key) with
  | none => ((false, false), c)
  | some e => ((e.valid, true), { c with order := e :: c.order.eraseP (fun x => x.key == key) })

/-- Method `lruCache.Set`: update-and-move-to-front if the key exists;
otherwise, if the list already holds at least `capacity` entries, the
back (least recently used) element is removed — when one exists, which
is the Go `oldest != nil` check — and the new entry is pushed to the
front. -/
def lruCache.Set (c : lruCache) (key : String) (valid : Bool) : lruCache :=
  if c.order.any (fun e => e.key == key) then
    { c with order := ⟨key, valid⟩ :: c.order.eraseP (fun e => e.key == key) }
  else if c.capacity ≤ c.order.length then
    { c with order := ⟨key, valid⟩ :: c.order.dropLast }
  else
    { c with order := ⟨key, valid⟩ :: c.order }

/-- The `Validator` struct of validator.go.  The `sync.RWMutex` only serializes
access and has no sequential content. -/
structure Validator where
  filePaths : List String
  bloomFilters : List BloomFilter
  cache : lruCache

/-- Go `NewValidator`: no paths, no filters, an empty cache of capacity
10000. -/
def NewValidator : Validator :=
  ⟨[], [], newLRUCache 10000⟩

/-- The scanning loop of `buildBloomFilter`: every 10000 counted lines
the context is polled (`count` starts at 0, so a cancelled context is
noticed on the first line); each line is trimmed and, when nonempty,
added to the filter. -/
def buildLoop (ctxCancelled : Bool) : BloomFilter → Nat → List String → Except String BloomFilter
  | filter, _, [] => Except.ok filter
  | filter, count, l :: rest =>
    if count % 10000 == 0 && ctxCancelled then Except.error "context canceled"
    else
      let line := stringsTrimSpace l
      if line ≠ "" then buildLoop ctxCancelled (filter.AddString line) (count + 1) rest
      else buildLoop ctxCancelled filter count rest

/-- Method `Validator.buildBloomFilter` (the receiver is unused in the Go
code): open the file, build a fresh filter from its trimmed nonempty
lines.  `extra` is the abstracted false-positive set of the fresh
filter. -/
def buildBloomFilter (fs : FS) (ctxCancelled : Bool) (extra : String → Bool)
    (filePath : String) : Except String BloomFilter :=
  match fs.lookup filePath with
  | none => Except.error "opening file"
  | some lines => buildLoop ctxCancelled (bloomNewWithEstimates extra) 0 lines

/-- The `os.Stat` verification loop at the top of `LoadFromFiles`:
the first missing path produces the error. -/
def statCheck (fs : FS) : List String → Option String
  | [] => none
  | p :: rest => if (fs.lookup p).isNone then some ("file does not exist: " ++ p) else statCheck fs rest

/-- First error of the collected build results, in the linearized
collection order. -/
def firstError : List (Except String BloomFilter) → Option String
  | [] => none
  | Except.error e :: _ => some e
  | Except.ok _ :: rest => firstError rest

/-- The filter slots already written when result collection stops:
all successful results before the first error.  (Go keeps a slice of
length `len(filePaths)` whose unwritten slots are nil pointers; the
model flattens it to the written slots, which no theorem below
inspects in an error state.) -/
def committedFilters : List (Except String BloomFilter) → List BloomFilter
  | [] => []
  | Except.ok f :: rest => f :: committedFilters rest
  | Except.error _ :: _ => []

/-- Method `Validator.LoadFromFiles`.  Faithful to the Go control flow: the
empty-list check and the `os.Stat` loop return *before* any mutation,
but `v.filePaths` and the filter slice are assigned *before* the build
results are examined, so a build failure returns an error with the new
`filePaths` (and partially written filters) already committed.
`extras i` is the abstracted false-positive set of the filter built
for file `i`. -/
def Validator.LoadFromFiles (v : Validator) (fs : FS) (ctxCancelled : Bool)
    (extras : Nat → String → Bool) (filePaths : List String) : Validator × Option String :=
  if filePaths.length == 0 then (v, some "no file paths provided")
  else
    match statCheck fs filePaths with
    | some msg => (v, some msg)
    | none =>
      let results := (List.range filePaths.length).map
        (fun i => buildBloomFilter fs ctxCancelled (extras i) (filePaths.getD i ""))
      ({ filePaths := filePaths, bloomFilters := committedFilters results, cache := v.cache },
       firstError results)

/-- The scanning loop of `searchFileForCoupon`: before each line the
context is polled; the line is trimmed — and only trimmed, not case
normalized — and compared with the (already normalized) coupon code. -/
def scanLines (ctxCancelled : Bool) (couponCode : String) : List String → Except String Bool
  | [] => Except.ok false
  | l :: rest =>
    if ctxCancelled then Except.error "context canceled"
    else if stringsTrimSpace l == couponCode then Except.ok true
    else scanLines ctxCancelled couponCode rest

/-- Function `searchFileForCoupon`: stream the file, return whether some trimmed
line equals the code; opening a missing file or a cancelled context is
an error. -/
def searchFileForCoupon (fs : FS) (ctxCancelled : Bool) (filePath couponCode : String) :
    Except String Bool :=
  match fs.lookup filePath with
  | none => Except.error "failed to open file"
  | some lines => scanLines ctxCancelled couponCode lines

/-- The Go `res.err == nil && res.found` test on one collected scan
result. -/
def isFoundOk : Except String Bool → Bool
  | Except.ok true => true
  | _ => false

/-- Result of one `IsValid` call: the returned boolean, the validator
after the call, and — instrumentation for the idempotence property —
the number of `searchFileForCoupon` invocations the call launched. -/
structure IsValidResult where
  result : Bool
  validator : Validator
  scans : Nat

/-- Method `Validator.IsValid`, the tiered quorum decision: normalize,
length gate, cache lookup, Bloom prescreen, quorum precheck,
confirmatory scans of the candidate files, cache update.  The
concurrent scan collection is linearized; the Go early return at two
confirmations yields the same boolean as counting all collected
results, since a scan error is never counted. -/
def Validator.IsValid (v : Validator) (fs : FS) (ctxCancelled : Bool) (code0 : String) :
    IsValidResult :=
  let code := stringsToUpper (stringsTrimSpace code0)
  if code.utf8ByteSize < 8 || 10 < code.utf8ByteSize then ⟨false, v, 0⟩
  else
    let g := v.cache.Get code
    if g.1.2 then ⟨g.1.1, { v with cache := g.2 }, 0⟩
    else
      let bloomFilters := v.bloomFilters
      let filePaths := v.filePaths
      if bloomFilters.length == 0 then ⟨false, { v with cache := g.2 }, 0⟩
      else
        let possibleFiles := (bloomFilters.enum.filter (fun p => p.2.TestString code)).map Prod.fst
        if possibleFiles.length < 2 then ⟨false, { v with cache := g.2.Set code false }, 0⟩
        else
          let outcomes := possibleFiles.map
            (fun i => searchFileForCoupon fs ctxCancelled (filePaths.getD i "") code)
          let filesWithCoupon := outcomes.countP isFoundOk
          let isValid := decide (2 ≤ filesWithCoupon)
          ⟨isValid, { v with cache := g.2.Set code isValid }, possibleFiles.length⟩

/-- The fields of the `map[string]interface{}` returned by
`Validator.GetStats`. -/
structure StatsResult where
  total_files : Nat
  file_paths : List String
  bloom_filters_loaded : Nat
  cache_size : Nat
  cache_capacity : Nat

/-- Method `Validator.GetStats`: a read-only snapshot; the Go method performs
no write to the validator or the cache (the cache length is read
without a `Get`), so the returned receiver is the argument itself. -/
def Validator.GetStats (v : Validator) : StatsResult × Validator :=
  (⟨v.filePaths.length, v.filePaths, v.bloomFilters.length,
    v.cache.order.length, v.cache.capacity⟩, v)


/-- A client operation on the recency cache, used to state properties of
arbitrary operation sequences. -/
inductive CacheOp where
  | get (key : String)
  | set (key : String) (valid : Bool)

/-- Apply one cache operation (the state effect of `Get` or `Set`). -/
def applyOp (c : lruCache) : CacheOp → lruCache
  | CacheOp.get k => (c.Get k).2
  | CacheOp.set k b => c.Set k b

/-- Run a sequence of cache operations from a given cache. -/
def runOps (c : lruCache) (ops : List CacheOp) : lruCache :=
  ops.foldl applyOp c

/-- The reachable-state invariant of the cache: distinct keys, length
bounded by the capacity, capacity constant. -/
def cacheInv (C : Nat) (c : lruCache) : Prop :=
  (c.order.map cacheEntry.key).Nodup ∧ c.order.length ≤ C ∧ c.capacity = C

theorem charToNat_ofNat_of_lt {n : Nat} (h : n < 55296) : (Char.ofNat n).toNat = n := by
  have hv : n.isValidChar := Or.inl h
  rw [Char.ofNat, dif_pos hv]
  rfl

theorem charToUpper_toUpper (c : Char) : c.toUpper.toUpper = c.toUpper := by
  unfold Char.toUpper
  by_cases h : c.toNat ≥ 97 ∧ c.toNat ≤ 122
  · rw [if_pos h]
    rw [if_neg]
    rw [charToNat_ofNat_of_lt (by omega)]
    omega
  · rw [if_neg h, if_neg h]

theorem isWhitespace_eq_false_of_lt {c : Char} (h : 64 < c.toNat) : c.isWhitespace = false := by
  simp only [Char.isWhitespace, Bool.or_eq_false_iff, decide_eq_false_iff_not]
  refine ⟨⟨⟨?_, ?_⟩, ?_⟩, ?_⟩ <;> rintro rfl <;> exact absurd h (by decide)

theorem isWhitespace_toUpper (c : Char) : c.toUpper.isWhitespace = c.isWhitespace := by
  unfold Char.toUpper
  by_cases h : c.toNat ≥ 97 ∧ c.toNat ≤ 122
  · rw [if_pos h]
    rw [isWhitespace_eq_false_of_lt, isWhitespace_eq_false_of_lt]
    · omega
    · rw [charToNat_ofNat_of_lt (by omega)]; omega
  · rw [if_neg h]

theorem head?_dropWhile_false {α : Type} {p : α → Bool} {l : List α} {c : α}
    (h : (l.dropWhile p).head? = some c) : p c = false := by
  induction l with
  | nil => exact Option.noConfusion h
  | cons a t ih =>
    rw [List.dropWhile_cons] at h
    by_cases hp : p a
    · rw [if_pos hp] at h
      exact ih h
    · rw [if_neg hp] at h
      simp only [List.head?_cons, Option.some.injEq] at h
      subst h
      exact Bool.eq_false_iff.mpr hp

theorem dropWhile_eq_self_of_head? {α : Type} {p : α → Bool} {l : List α}
    (h : ∀ c, l.head? = some c → p c = false) : l.dropWhile p = l := by
  cases l with
  | nil => rfl
  | cons a t =>
    rw [List.dropWhile_cons, if_neg]
    simp [h a rfl]

theorem dropWhile_dropWhile {α : Type} (p : α → Bool) (l : List α) :
    (l.dropWhile p).dropWhile p = l.dropWhile p := by
  apply dropWhile_eq_self_of_head?
  intro c hc
  exact head?_dropWhile_false hc

theorem head?_eq_of_append {α : Type} {l₁ l₂ : List α} (h : l₁ <+: l₂) (hne : l₁ ≠ []) :
    l₂.head? = l₁.head? := by
  obtain ⟨t, rfl⟩ := h
  cases l₁ with
  | nil => exact absurd rfl hne
  | cons a t' => rfl

theorem trimData_eq (s : String) :
    (stringsTrimSpace s).data
      = ((s.data.dropWhile Char.isWhitespace).reverse.dropWhile Char.isWhitespace).reverse := rfl

theorem trim_twice (l : List Char) :
    (((((((l.dropWhile Char.isWhitespace).reverse.dropWhile
        Char.isWhitespace).reverse).dropWhile
        Char.isWhitespace).reverse).dropWhile Char.isWhitespace).reverse)
      = ((l.dropWhile Char.isWhitespace).reverse.dropWhile Char.isWhitespace).reverse := by
  set p := Char.isWhitespace with hp
  set A := l.dropWhile p with hA
  set T := (A.reverse.dropWhile p).reverse with hT
  have hTA : T <+: A := by
    rw [hT]
    have hsuf : A.reverse.dropWhile p <:+ A.reverse := List.dropWhile_suffix p
    have h2 := List.reverse_prefix.mpr hsuf
    rwa [List.reverse_reverse] at h2
  have hdT : T.dropWhile p = T := by
    apply dropWhile_eq_self_of_head?
    intro c hc
    have hTne : T ≠ [] := by
      intro hnil
      rw [hnil] at hc
      simp at hc
    have hhd : A.head? = T.head? := head?_eq_of_append hTA hTne
    rw [hc] at hhd
    exact head?_dropWhile_false (l := l) (by rw [hA] at hhd; exact hhd)
  rw [hdT]
  rw [hT, List.reverse_reverse, dropWhile_dropWhile]

theorem map_toUpper_idem (l : List Char) :
    (l.map Char.toUpper).map Char.toUpper = l.map Char.toUpper := by
  induction l with
  | nil => rfl
  | cons a t ih => simp [charToUpper_toUpper, ih]

theorem dropWhile_map_toUpper (l : List Char) :
    (l.map Char.toUpper).dropWhile Char.isWhitespace
      = (l.dropWhile Char.isWhitespace).map Char.toUpper := by
  induction l with
  | nil => rfl
  | cons a t ih =>
    simp only [List.map_cons, List.dropWhile_cons, isWhitespace_toUpper]
    by_cases hw : a.isWhitespace
    · simp only [hw, if_true]
      exact ih
    · simp only [hw, if_false, Bool.false_eq_true]
      rfl

theorem normalize_idem (s : String) :
    stringsToUpper (stringsTrimSpace (stringsToUpper (stringsTrimSpace s)))
      = stringsToUpper (stringsTrimSpace s) := by
  apply congrArg String.mk
  show ((((stringsTrimSpace s).data.map Char.toUpper).dropWhile
        Char.isWhitespace).reverse.dropWhile
      Char.isWhitespace).reverse.map Char.toUpper = (stringsTrimSpace s).data.map Char.toUpper
  rw [trimData_eq]
  rw [dropWhile_map_toUpper]
  rw [← List.map_reverse, dropWhile_map_toUpper, ← List.map_reverse]
  rw [trim_twice, map_toUpper_idem]

theorem lruGet_fst_after_set (c : lruCache) (k : String) (b : Bool) :
    ((c.Set k b).Get k).1 = (b, true) := by
  have horder : ∃ t, (c.Set k b).order = ⟨k, b⟩ :: t := by
    unfold lruCache.Set
    by_cases h1 : c.order.any (fun e => e.key == k)
    · rw [if_pos h1]; exact ⟨_, rfl⟩
    · rw [if_neg h1]
      by_cases h2 : c.capacity ≤ c.order.length
      · rw [if_pos h2]; exact ⟨_, rfl⟩
      · rw [if_neg h2]; exact ⟨_, rfl⟩
  obtain ⟨t, ht⟩ := horder
  unfold lruCache.Get
  rw [ht, List.find?_cons_of_pos _ (by simp)]

theorem lruGet_stable (c : lruCache) (k : String) (h : (c.Get k).1.2 = true) :
    ((c.Get k).2.Get k).1 = (c.Get k).1 := by
  cases hf : c.order.find? (fun e => e.key == k) with
  | none =>
    unfold lruCache.Get at h
    rw [hf] at h
    simp at h
  | some e =>
    have hpe := List.find?_some hf
    have h1 : c.Get k
        = ((e.valid, true), ⟨c.capacity, e :: c.order.eraseP (fun x => x.key == k)⟩) := by
      unfold lruCache.Get
      rw [hf]
    rw [h1]
    unfold lruCache.Get
    dsimp only
    rw [List.find?_cons_of_pos (p := fun x : cacheEntry => x.key == k) _ hpe]

theorem lruGet_miss (c : lruCache) (k : String) (h : (c.Get k).1.2 = false) :
    c.Get k = ((false, false), c) := by
  unfold lruCache.Get at h ⊢
  cases hf : c.order.find? (fun e => e.key == k) with
  | none => rfl
  | some e => rw [hf] at h; simp at h

/-- C8: validation is invariant under input normalization: for every
string s and every validator state, file system and context,
`IsValid` on s equals `IsValid` on `uppercase(trim(s))` — the result,
the post state and the scan count all coincide. -/
theorem isValid_normalization_invariant (fs : FS) (ctxCancelled : Bool) (v : Validator)
    (s : String) :
    v.IsValid fs ctxCancelled s
      = v.IsValid fs ctxCancelled (stringsToUpper (stringsTrimSpace s)) := by
  simp only [Validator.IsValid, normalize_idem]

/-- C4 (amended): for every string whose normalized form has byte
length below 8 or above 10, `IsValid` returns false and leaves the
validator (in particular the cache) completely untouched, performing
no scan, in every validator state including zero sources loaded.
The amendment: the gate applies to the normalized length, not the raw
length of the input string (see the counterexample). -/
theorem isValid_length_gate (fs : FS) (ctxCancelled : Bool) (v : Validator) (code : String)
    (h : (stringsToUpper (stringsTrimSpace code)).utf8ByteSize < 8
       ∨ 10 < (stringsToUpper (stringsTrimSpace code)).utf8ByteSize) :
    v.IsValid fs ctxCancelled code = ⟨false, v, 0⟩ := by
  unfold Validator.IsValid
  rw [if_pos]
  rcases h with h | h <;> simp [h]

/-- C10: when no filters are loaded, `IsValid` on a code of valid
normalized length that is not in the cache returns false and leaves
the validator — in particular the cache — completely unchanged, with
no scan performed. -/
theorem isValid_no_filters_no_cache_write (fs : FS) (ctxCancelled : Bool) (v : Validator)
    (code : String)
    (hb : v.bloomFilters = [])
    (h8 : 8 ≤ (stringsToUpper (stringsTrimSpace code)).utf8ByteSize)
    (h10 : (stringsToUpper (stringsTrimSpace code)).utf8ByteSize ≤ 10)
    (hmiss : (v.cache.Get (stringsToUpper (stringsTrimSpace code))).1.2 = false) :
    v.IsValid fs ctxCancelled code = ⟨false, v, 0⟩ := by
  rcases v with ⟨fp, bf, ca⟩
  simp only at hb hmiss
  subst hb
  unfold Validator.IsValid
  rw [if_neg (by simp; omega)]
  simp only [hmiss, lruGet_miss _ _ hmiss]
  simp

/-- C9: `IsValid` never modifies the filter state: `filePaths` and
`bloomFilters` are unchanged by every call (only the cache may
change); and `GetStats` performs no write at all — the method body
only reads, so the embedded method returns its receiver unchanged. -/
theorem isValid_frame_and_getStats_pure (fs : FS) (ctxCancelled : Bool) (v : Validator)
    (code : String) :
    ((v.IsValid fs ctxCancelled code).validator.filePaths = v.filePaths
      ∧ (v.IsValid fs ctxCancelled code).validator.bloomFilters = v.bloomFilters)
    ∧ (v.GetStats).2 = v := by
  refine ⟨?_, rfl⟩
  simp only [Validator.IsValid]
  split
  · exact ⟨rfl, rfl⟩
  · split
    · exact ⟨rfl, rfl⟩
    · split
      · exact ⟨rfl, rfl⟩
      · split
        · exact ⟨rfl, rfl⟩
        · exact ⟨rfl, rfl⟩

theorem isFoundOk_scanLines_cancelled (code : String) (lines : List String) :
    isFoundOk (scanLines true code lines) = false := by
  cases lines with
  | nil => rfl
  | cons l rest => rfl

theorem isFoundOk_search_cancelled (fs : FS) (p code : String) :
    isFoundOk (searchFileForCoupon fs true p code) = false := by
  unfold searchFileForCoupon
  cases fs.lookup p with
  | none => rfl
  | some lines => exact isFoundOk_scanLines_cancelled code lines

theorem decide_two_le_countP_false {α : Type} (P : α → Bool) (l : List α)
    (h : ∀ x ∈ l, P x = false) : decide (2 ≤ l.countP P) = false := by
  have h0 : l.countP P = 0 := List.countP_eq_zero.mpr (fun a ha => by simp [h a ha])
  rw [h0]
  rfl

/-- C7: `IsValid` always completes with a definitive boolean (it is a
total function of the embedded state), and a confirmatory scan that
returns an error is never counted as a confirmation: with a cancelled
context every scan that runs returns an error or scans nothing, so a
code that is not already cached validates to false — the errors
contribute zero to the confirmed count. -/
theorem isValid_scan_error_not_confirmed (fs : FS) (v : Validator) (code : String)
    (hmiss : (v.cache.Get (stringsToUpper (stringsTrimSpace code))).1.2 = false) :
    (v.IsValid fs true code).result = false := by
  simp only [Validator.IsValid]
  split
  · rfl
  · rw [if_neg (by rw [hmiss]; simp)]
    split
    · rfl
    · split
      · rfl
      · refine decide_two_le_countP_false _ _ (fun x hx => ?_)
        obtain ⟨i, _, rfl⟩ := List.mem_map.mp hx
        exact isFoundOk_search_cancelled fs _ _

/-- C6: two consecutive `IsValid` calls with the same code and no
interleaving operation return the same boolean, and the second call
launches no streaming scan of any source file (its scan count is 0). -/
theorem isValid_idempotent_no_rescan (fs : FS) (ctx : Bool) (v : Validator) (code : String) :
    ((v.IsValid fs ctx code).validator.IsValid fs ctx code).result
        = (v.IsValid fs ctx code).result
      ∧ ((v.IsValid fs ctx code).validator.IsValid fs ctx code).scans = 0 := by
  set nc := stringsToUpper (stringsTrimSpace code) with hnc
  by_cases hgate : (decide (nc.utf8ByteSize < 8) || decide (10 < nc.utf8ByteSize)) = true
  · have h1 : v.IsValid fs ctx code = ⟨false, v, 0⟩ := by
      simp only [Validator.IsValid, ← hnc]
      rw [if_pos hgate]
    rw [h1]
    dsimp only
    rw [h1]
    exact ⟨rfl, rfl⟩
  · by_cases hhit : (v.cache.Get nc).1.2 = true
    · have h1 : v.IsValid fs ctx code
          = ⟨(v.cache.Get nc).1.1, { v with cache := (v.cache.Get nc).2 }, 0⟩ := by
        simp only [Validator.IsValid, ← hnc]
        rw [if_neg hgate, if_pos hhit]
      have hstab := lruGet_stable v.cache nc hhit
      rw [h1]
      dsimp only
      simp only [Validator.IsValid, ← hnc]
      rw [if_neg hgate]
      dsimp only
      rw [if_pos (show ((v.cache.Get nc).2.Get nc).1.2 = true by rw [hstab]; exact hhit)]
      dsimp only
      constructor
      · rw [hstab]
      · rfl
    · have hget := lruGet_miss v.cache nc (by revert hhit; cases h : (v.cache.Get nc).1.2 <;> simp)
      by_cases hempty : (v.bloomFilters.length == 0) = true
      · have h1 : v.IsValid fs ctx code = ⟨false, v, 0⟩ := by
          simp only [Validator.IsValid, ← hnc]
          rw [if_neg hgate, if_neg hhit, if_pos hempty, hget]
        rw [h1]
        dsimp only
        rw [h1]
        exact ⟨rfl, rfl⟩
      · by_cases hpre : (List.map Prod.fst
            (List.filter (fun p => p.2.TestString nc) v.bloomFilters.enum)).length < 2
        · have h1 : v.IsValid fs ctx code
              = ⟨false, { v with cache := (v.cache.Get nc).2.Set nc false }, 0⟩ := by
            simp only [Validator.IsValid, ← hnc]
            rw [if_neg hgate, if_neg hhit, if_neg hempty, if_pos hpre]
          rw [h1]
          dsimp only
          simp only [Validator.IsValid, ← hnc]
          rw [if_neg hgate]
          dsimp only
          rw [if_pos (show (((v.cache.Get nc).2.Set nc false).Get nc).1.2 = true by
            rw [lruGet_fst_after_set])]
          dsimp only
          constructor
          · rw [lruGet_fst_after_set]
          · rfl
        · have h1 : v.IsValid fs ctx code
              = ⟨decide (2 ≤ (List.map (fun i => searchFileForCoupon fs ctx
                    (v.filePaths.getD i "") nc) (List.map Prod.fst
                    (List.filter (fun p => p.2.TestString nc) v.bloomFilters.enum))).countP
                    isFoundOk),
                 { v with cache := (v.cache.Get nc).2.Set nc (decide (2 ≤ (List.map
                    (fun i => searchFileForCoupon fs ctx (v.filePaths.getD i "") nc)
                    (List.map Prod.fst (List.filter (fun p => p.2.TestString nc)
                    v.bloomFilters.enum))).countP isFoundOk)) },
                 (List.map Prod.fst
                    (List.filter (fun p => p.2.TestString nc) v.bloomFilters.enum)).length⟩ := by
            simp only [Validator.IsValid, ← hnc]
            rw [if_neg hgate, if_neg hhit, if_neg hempty, if_neg hpre]
          rw [h1]
          dsimp only
          simp only [Validator.IsValid, ← hnc]
          rw [if_neg hgate]
          dsimp only
          rw [if_pos (show ((((v.cache.Get nc).2.Set nc _).Get nc)).1.2 = true by
            rw [lruGet_fst_after_set])]
          dsimp only
          constructor
          · rw [lruGet_fst_after_set]
          · rfl


theorem find?_eraseP_decomp {α : Type} {p : α → Bool} {l : List α} {e : α}
    (h : l.find? p = some e) :
    ∃ l₁ l₂, l = l₁ ++ e :: l₂ ∧ l.eraseP p = l₁ ++ l₂ := by
  induction l with
  | nil => exact Option.noConfusion h
  | cons a t ih =>
    by_cases hp : p a
    · rw [List.find?_cons_of_pos _ hp] at h
      obtain rfl : a = e := by injection h
      exact ⟨[], t, rfl, List.eraseP_cons_of_pos hp⟩
    · rw [List.find?_cons_of_neg _ hp] at h
      obtain ⟨l₁, l₂, rfl, he⟩ := ih h
      exact ⟨a :: l₁, l₂, rfl, by rw [List.eraseP_cons_of_neg hp, he]; rfl⟩

theorem cons_eraseP_perm {α : Type} {p : α → Bool} {l : List α} {e : α}
    (h : l.find? p = some e) : List.Perm (e :: l.eraseP p) l := by
  obtain ⟨l₁, l₂, hl, he⟩ := find?_eraseP_decomp h
  rw [he]
  rw [hl]
  exact List.perm_middle.symm

theorem lruGet_order_perm (c : lruCache) (k : String) :
    List.Perm ((c.Get k).2).order c.order ∧ ((c.Get k).2).capacity = c.capacity := by
  unfold lruCache.Get
  cases hf : c.order.find? (fun e => e.key == k) with
  | none => exact ⟨List.Perm.refl _, rfl⟩
  | some e => exact ⟨cons_eraseP_perm hf, rfl⟩

theorem lruSet_inv (C : Nat) (hC : 1 ≤ C) (c : lruCache) (hcap : c.capacity = C)
    (hnd : (c.order.map cacheEntry.key).Nodup) (hlen : c.order.length ≤ C)
    (k : String) (b : Bool) :
    ((c.Set k b).order.map cacheEntry.key).Nodup ∧ (c.Set k b).order.length ≤ C
      ∧ (c.Set k b).capacity = C := by
  unfold lruCache.Set
  by_cases hany : c.order.any (fun e => e.key == k) = true
  · rw [if_pos hany]
    dsimp only
    have hsome : (c.order.find? (fun e => e.key == k)).isSome := by
      rw [List.find?_isSome]
      exact List.any_eq_true.mp hany
    obtain ⟨e, hf⟩ := Option.isSome_iff_exists.mp hsome
    have hek : e.key = k := by
      have hb := List.find?_some hf
      exact eq_of_beq hb
    obtain ⟨l₁, l₂, hl, he⟩ := find?_eraseP_decomp hf
    refine ⟨?_, ?_, hcap⟩
    · have hperm : List.Perm (((⟨k, b⟩ : cacheEntry)
            :: c.order.eraseP (fun e => e.key == k)).map cacheEntry.key)
          (c.order.map cacheEntry.key) := by
        rw [he]
        rw [hl]
        simp only [List.map_cons, List.map_append]
        rw [← hek]
        exact List.perm_middle.symm
      exact hperm.nodup_iff.mpr hnd
    · have h1 : ((⟨k, b⟩ : cacheEntry) :: c.order.eraseP (fun e => e.key == k)).length
          = c.order.length := by
        rw [he, hl]
        simp only [List.length_cons, List.length_append]
        omega
      simp only [h1]
      exact hlen
  · rw [if_neg hany]
    have hfresh : ∀ e ∈ c.order, e.key ≠ k := by
      intro e he hk
      apply hany
      exact List.any_eq_true.mpr ⟨e, he, by rw [hk]; exact beq_self_eq_true k⟩
    by_cases hcapz : c.capacity ≤ c.order.length
    · rw [if_pos hcapz]
      have hne : c.order ≠ [] := by
        intro h0
        rw [h0] at hcapz
        simp at hcapz
        omega
      refine ⟨?_, ?_, hcap⟩
      · rw [List.map_cons, List.nodup_cons]
        constructor
        · intro hmem
          obtain ⟨e, hel, hke⟩ := List.mem_map.mp hmem
          exact hfresh e ((List.dropLast_sublist c.order).mem hel) hke
        · exact hnd.sublist ((List.dropLast_sublist c.order).map cacheEntry.key)
      · rw [List.length_cons, List.length_dropLast]
        omega
    · rw [if_neg hcapz]
      refine ⟨?_, ?_, hcap⟩
      · rw [List.map_cons, List.nodup_cons]
        constructor
        · intro hmem
          obtain ⟨e, hel, hke⟩ := List.mem_map.mp hmem
          exact hfresh e hel hke
        · exact hnd
      · rw [List.length_cons]
        rw [hcap] at hcapz
        omega

theorem cacheInv_applyOp (C : Nat) (hC : 1 ≤ C) (c : lruCache) (h : cacheInv C c)
    (op : CacheOp) : cacheInv C (applyOp c op) := by
  obtain ⟨hnd, hlen, hcap⟩ := h
  cases op with
  | get k =>
    simp only [applyOp]
    obtain ⟨hperm, hcap2⟩ := lruGet_order_perm c k
    refine ⟨?_, ?_, by rw [hcap2]; exact hcap⟩
    · exact ((hperm.map cacheEntry.key).nodup_iff).mpr hnd
    · rw [hperm.length_eq]
      exact hlen
  | set k b =>
    simp only [applyOp]
    obtain ⟨h1, h2, h3⟩ := lruSet_inv C hC c hcap hnd hlen k b
    exact ⟨h1, h2, h3⟩

theorem cacheInv_runOps (C : Nat) (hC : 1 ≤ C) (ops : List CacheOp) :
    ∀ c : lruCache, cacheInv C c → cacheInv C (runOps c ops) := by
  induction ops with
  | nil => intro c h; exact h
  | cons op rest ih =>
    intro c h
    exact ih (applyOp c op) (cacheInv_applyOp C hC c h op)

theorem cacheInv_new (C : Nat) : cacheInv C (newLRUCache C) :=
  ⟨List.nodup_nil, by simp [newLRUCache], rfl⟩

/-- C5 (amended): for capacity C at least 1 and every sequence of Get
and Set operations from the empty cache, the number of stored entries
never exceeds C; and when Set inserts a fresh key into a cache holding
exactly C entries, exactly the least recently used entry (the back of
the recency list) is evicted — the new front entry plus all entries
except the back remain — and a subsequent Get of the evicted key
misses.  The amendment: capacity 0 is excluded, because the Go code
skips the eviction when the list is empty and stores the new entry
anyway (see the counterexample). -/
theorem lru_capacity_bound_and_eviction (C : Nat) (hC : 1 ≤ C) (ops : List CacheOp)
    (key : String) (b : Bool) :
    (runOps (newLRUCache C) ops).order.length ≤ C
    ∧ ((runOps (newLRUCache C) ops).order.length = C →
        (∀ e ∈ (runOps (newLRUCache C) ops).order, e.key ≠ key) →
        ∀ ev : cacheEntry, (runOps (newLRUCache C) ops).order.getLast? = some ev →
          ((runOps (newLRUCache C) ops).Set key b).order
              = ⟨key, b⟩ :: (runOps (newLRUCache C) ops).order.dropLast
            ∧ (runOps (newLRUCache C) ops).order
              = (runOps (newLRUCache C) ops).order.dropLast ++ [ev]
            ∧ (((runOps (newLRUCache C) ops).Set key b).Get ev.key).1.2 = false) := by
  obtain ⟨hnd, hlen, hcap⟩ := cacheInv_runOps C hC ops (newLRUCache C) (cacheInv_new C)
  refine ⟨hlen, ?_⟩
  intro hfull hfresh ev hlast
  set c := runOps (newLRUCache C) ops with hc
  have hany : ¬ c.order.any (fun e => e.key == key) = true := by
    intro h
    obtain ⟨e, he, hk⟩ := List.any_eq_true.mp h
    exact hfresh e he (eq_of_beq hk)
  have hset : (c.Set key b).order = ⟨key, b⟩ :: c.order.dropLast := by
    unfold lruCache.Set
    rw [if_neg hany, if_pos (by rw [hcap, hfull])]
  obtain ⟨ys, hys⟩ := List.getLast?_eq_some_iff.mp hlast
  have hdrop : c.order.dropLast = ys := by
    rw [hys]
    exact List.dropLast_concat
  refine ⟨hset, by rw [hdrop, ← hys], ?_⟩
  have hevmem : ev ∈ c.order := List.mem_of_getLast?_eq_some hlast
  have hevk : ev.key ≠ key := hfresh ev hevmem
  have hnotys : ∀ x ∈ ys, x.key ≠ ev.key := by
    intro x hx hxk
    have : (c.order.map cacheEntry.key).Nodup := hnd
    rw [hys, List.map_append] at this
    simp only [List.map_cons, List.map_nil] at this
    have hx' : ev.key ∈ ys.map cacheEntry.key := by
      exact List.mem_map.mpr ⟨x, hx, hxk⟩
    have hdisj := (List.nodup_append.mp this).2.2
    exact hdisj hx' (by simp)
  unfold lruCache.Get
  rw [hset, hdrop]
  rw [List.find?_cons_of_neg _ (by simp [Ne.symm hevk])]
  rw [List.find?_eq_none.mpr (by intro x hx; simp [hnotys x hx])]

theorem buildLoop_ok (lines : List String) :
    ∀ (f : BloomFilter) (n : Nat), ∃ g : BloomFilter,
      buildLoop false f n lines = Except.ok g ∧ g.extra = f.extra
      ∧ (∀ s, s ∈ g.added ↔ s ∈ f.added
            ∨ ∃ l ∈ lines, stringsTrimSpace l ≠ "" ∧ stringsTrimSpace l = s) := by
  induction lines with
  | nil =>
    intro f n
    refine ⟨f, rfl, rfl, fun s => ?_⟩
    simp
  | cons l rest ih =>
    intro f n
    unfold buildLoop
    rw [if_neg (by simp)]
    by_cases hl : stringsTrimSpace l ≠ ""
    · rw [if_pos hl]
      obtain ⟨g, hg, hex, hmem⟩ := ih (f.AddString (stringsTrimSpace l)) (n + 1)
      refine ⟨g, hg, hex, fun s => ?_⟩
      rw [hmem s]
      unfold BloomFilter.AddString
      simp only [List.mem_cons, List.mem_singleton]
      constructor
      · rintro ((h | h) | ⟨l', hl', h1, h2⟩)
        · exact Or.inr ⟨l, Or.inl rfl, hl, h.symm⟩
        · exact Or.inl h
        · exact Or.inr ⟨l', Or.inr hl', h1, h2⟩
      · rintro (h | ⟨l', (rfl | hl'), h1, h2⟩)
        · exact Or.inl (Or.inr h)
        · exact Or.inl (Or.inl h2.symm)
        · exact Or.inr ⟨l', hl', h1, h2⟩
    · rw [if_neg hl]
      obtain ⟨g, hg, hex, hmem⟩ := ih f n
      refine ⟨g, hg, hex, fun s => ?_⟩
      rw [hmem s]
      constructor
      · rintro (h | ⟨l', hl', h1, h2⟩)
        · exact Or.inl h
        · exact Or.inr ⟨l', List.mem_cons_of_mem _ hl', h1, h2⟩
      · rintro (h | ⟨l', hl', h1, h2⟩)
        · exact Or.inl h
        · rcases List.mem_cons.mp hl' with rfl | hl''
          · exact absurd h1 (by simpa using hl)
          · exact Or.inr ⟨l', hl'', h1, h2⟩

theorem buildBloomFilter_ok (fs : FS) (extra : String → Bool) (p : String) (D : List String)
    (hp : fs.lookup p = some D) :
    ∃ g : BloomFilter, buildBloomFilter fs false extra p = Except.ok g
      ∧ g.extra = extra
      ∧ (∀ s, s ∈ g.added ↔ ∃ l ∈ D, stringsTrimSpace l ≠ "" ∧ stringsTrimSpace l = s) := by
  unfold buildBloomFilter
  rw [hp]
  obtain ⟨g, hg, hex, hmem⟩ := buildLoop_ok D (bloomNewWithEstimates extra) 0
  refine ⟨g, hg, hex, fun s => ?_⟩
  rw [hmem s]
  simp [bloomNewWithEstimates]

theorem scanLines_ok (code : String) (lines : List String) :
    scanLines false code lines = Except.ok (lines.any (fun l => stringsTrimSpace l == code)) := by
  induction lines with
  | nil => rfl
  | cons l rest ih =>
    unfold scanLines
    rw [if_neg (by simp)]
    by_cases hl : (stringsTrimSpace l == code) = true
    · rw [if_pos hl]
      simp [List.any_cons, hl]
    · rw [if_neg hl]
      rw [ih]
      simp only [List.any_cons]
      rw [Bool.eq_false_iff.mpr hl]
      rfl

theorem searchFile_ok (fs : FS) (p code : String) (D : List String)
    (hp : fs.lookup p = some D) :
    searchFileForCoupon fs false p code
      = Except.ok (D.any (fun l => stringsTrimSpace l == code)) := by
  unfold searchFileForCoupon
  rw [hp]
  exact scanLines_ok code D

theorem any_trim_beq_eq_mem (D : List String) (c : String)
    (h : ∀ r ∈ D, stringsTrimSpace r = r) :
    D.any (fun l => stringsTrimSpace l == c) = decide (c ∈ D) := by
  cases hb : D.any (fun l => stringsTrimSpace l == c) with
  | true =>
    obtain ⟨l, hl, hbeq⟩ := List.any_eq_true.mp hb
    rw [h l hl] at hbeq
    have : l = c := eq_of_beq hbeq
    subst this
    simp [hl]
  | false =>
    by_cases hc : c ∈ D
    · exfalso
      have : D.any (fun l => stringsTrimSpace l == c) = true :=
        List.any_eq_true.mpr ⟨c, hc, by rw [h c hc]; exact beq_self_eq_true c⟩
      rw [this] at hb
      exact Bool.noConfusion hb
    · simp [hc]

theorem load3_ok (p1 p2 p3 : String) (A B C : List String) (extras : Nat → String → Bool)
    (v : Validator) (hp12 : p1 ≠ p2) (hp13 : p1 ≠ p3) (hp23 : p2 ≠ p3) :
    ∃ g1 g2 g3 : BloomFilter,
      v.LoadFromFiles [(p1, A), (p2, B), (p3, C)] false extras [p1, p2, p3]
        = (⟨[p1, p2, p3], [g1, g2, g3], v.cache⟩, none)
      ∧ g1.extra = extras 0 ∧ g2.extra = extras 1 ∧ g3.extra = extras 2
      ∧ (∀ s, s ∈ g1.added ↔ ∃ l ∈ A, stringsTrimSpace l ≠ "" ∧ stringsTrimSpace l = s)
      ∧ (∀ s, s ∈ g2.added ↔ ∃ l ∈ B, stringsTrimSpace l ≠ "" ∧ stringsTrimSpace l = s)
      ∧ (∀ s, s ∈ g3.added ↔ ∃ l ∈ C, stringsTrimSpace l ≠ "" ∧ stringsTrimSpace l = s) := by
  have e21 : (p2 == p1) = false := beq_eq_false_iff_ne.mpr (Ne.symm hp12)
  have e31 : (p3 == p1) = false := beq_eq_false_iff_ne.mpr (Ne.symm hp13)
  have e32 : (p3 == p2) = false := beq_eq_false_iff_ne.mpr (Ne.symm hp23)
  have h1 : ([(p1, A), (p2, B), (p3, C)] : FS).lookup p1 = some A := by
    simp [List.lookup]
  have h2 : ([(p1, A), (p2, B), (p3, C)] : FS).lookup p2 = some B := by
    simp [List.lookup, e21]
  have h3 : ([(p1, A), (p2, B), (p3, C)] : FS).lookup p3 = some C := by
    simp [List.lookup, e31, e32]
  obtain ⟨g1, hg1, hex1, hm1⟩ := buildBloomFilter_ok _ (extras 0) p1 A h1
  obtain ⟨g2, hg2, hex2, hm2⟩ := buildBloomFilter_ok _ (extras 1) p2 B h2
  obtain ⟨g3, hg3, hex3, hm3⟩ := buildBloomFilter_ok _ (extras 2) p3 C h3
  refine ⟨g1, g2, g3, ?_, hex1, hex2, hex3, hm1, hm2, hm3⟩
  unfold Validator.LoadFromFiles
  rw [if_neg (by simp)]
  have hstat : statCheck [(p1, A), (p2, B), (p3, C)] [p1, p2, p3] = none := by
    unfold statCheck
    rw [if_neg (by simp [h1])]
    unfold statCheck
    rw [if_neg (by simp [h2])]
    unfold statCheck
    rw [if_neg (by simp [h3])]
    rfl
  rw [hstat]
  have hres : (List.range ([p1, p2, p3] : List String).length).map
      (fun i => buildBloomFilter [(p1, A), (p2, B), (p3, C)] false (extras i)
        (([p1, p2, p3] : List String).getD i ""))
      = [Except.ok g1, Except.ok g2, Except.ok g3] := by
    show [buildBloomFilter [(p1, A), (p2, B), (p3, C)] false (extras 0) p1,
          buildBloomFilter [(p1, A), (p2, B), (p3, C)] false (extras 1) p2,
          buildBloomFilter [(p1, A), (p2, B), (p3, C)] false (extras 2) p3] = _
    rw [hg1, hg2, hg3]
  dsimp only
  rw [hres]
  rfl

set_option maxHeartbeats 1600000 in
theorem quorum_eval (g1 g2 g3 : BloomFilter) (c : String) (m1 m2 m3 e1 e2 e3 : Bool)
    (scan : Nat → Except String Bool)
    (ht1 : g1.TestString c = (m1 || e1)) (ht2 : g2.TestString c = (m2 || e2))
    (ht3 : g3.TestString c = (m3 || e3))
    (hs1 : scan 0 = Except.ok m1) (hs2 : scan 1 = Except.ok m2)
    (hs3 : scan 2 = Except.ok m3) :
    (if ((([g1, g2, g3].enum.filter (fun p => p.2.TestString c)).map Prod.fst).length < 2)
     then false
     else decide (2 ≤ ((([g1, g2, g3].enum.filter
            (fun p => p.2.TestString c)).map Prod.fst).map scan).countP isFoundOk))
    = decide (2 ≤ ((if m1 = true then 1 else 0) + (if m2 = true then 1 else 0)
        + (if m3 = true then 1 else 0) : Nat)) := by
  have henum : ([g1, g2, g3] : List BloomFilter).enum = [(0, g1), (1, g2), (2, g3)] := rfl
  rw [henum]
  simp only [List.filter_cons, List.filter_nil, ht1, ht2, ht3]
  cases m1 <;> cases m2 <;> cases m3 <;> cases e1 <;> cases e2 <;> cases e3 <;>
    simp [hs1, hs2, hs3, isFoundOk, List.countP_cons, List.countP_nil]

/-- C1: after a successful `LoadFromFiles` of three datasets whose
records are uppercase, trimmed and of length 8-10, starting from the
empty cache of `NewValidator`, `IsValid` returns true exactly when the
normalized code appears in at least 2 of the 3 datasets — for every
false-positive behaviour of the three Bloom filters. -/
theorem isValid_quorum_of_loaded
    (p1 p2 p3 : String) (A B C : List String) (extras : Nat → String → Bool) (code : String)
    (hp12 : p1 ≠ p2) (hp13 : p1 ≠ p3) (hp23 : p2 ≠ p3)
    (hrec : ∀ r ∈ A ++ B ++ C, stringsTrimSpace r = r ∧ stringsToUpper r = r
              ∧ 8 ≤ r.utf8ByteSize ∧ r.utf8ByteSize ≤ 10) :
    (NewValidator.LoadFromFiles [(p1, A), (p2, B), (p3, C)] false extras [p1, p2, p3]).2 = none
    ∧ (((NewValidator.LoadFromFiles [(p1, A), (p2, B), (p3, C)] false extras
          [p1, p2, p3]).1.IsValid [(p1, A), (p2, B), (p3, C)] false code).result = true
        ↔ 2 ≤ [A, B, C].countP
            (fun D => decide ((stringsToUpper (stringsTrimSpace code)) ∈ D))) := by
  obtain ⟨g1, g2, g3, heq, hex1, hex2, hex3, hm1, hm2, hm3⟩ :=
    load3_ok p1 p2 p3 A B C extras NewValidator hp12 hp13 hp23
  refine ⟨by rw [heq], ?_⟩
  rw [heq]
  have hrecA : ∀ r ∈ A, stringsTrimSpace r = r ∧ 8 ≤ r.utf8ByteSize ∧ r.utf8ByteSize ≤ 10 := by
    intro r hr
    have := hrec r (by simp [hr])
    exact ⟨this.1, this.2.2.1, this.2.2.2⟩
  have hrecB : ∀ r ∈ B, stringsTrimSpace r = r ∧ 8 ≤ r.utf8ByteSize ∧ r.utf8ByteSize ≤ 10 := by
    intro r hr
    have := hrec r (by simp [hr])
    exact ⟨this.1, this.2.2.1, this.2.2.2⟩
  have hrecC : ∀ r ∈ C, stringsTrimSpace r = r ∧ 8 ≤ r.utf8ByteSize ∧ r.utf8ByteSize ≤ 10 := by
    intro r hr
    have := hrec r (by simp [hr])
    exact ⟨this.1, this.2.2.1, this.2.2.2⟩
  have hne : ∀ (D : List String),
      (∀ r ∈ D, stringsTrimSpace r = r ∧ 8 ≤ r.utf8ByteSize ∧ r.utf8ByteSize ≤ 10) →
      ∀ g : BloomFilter,
      (∀ s, s ∈ g.added ↔ ∃ l ∈ D, stringsTrimSpace l ≠ "" ∧ stringsTrimSpace l = s) →
      ∀ s, s ∈ g.added ↔ s ∈ D := by
    intro D hD g hg s
    rw [hg s]
    constructor
    · rintro ⟨l, hl, _, h2⟩
      rw [(hD l hl).1] at h2
      exact h2 ▸ hl
    · intro hs
      refine ⟨s, hs, ?_, (hD s hs).1⟩
      rw [(hD s hs).1]
      intro h0
      have := (hD s hs).2.1
      rw [h0] at this
      simp [String.utf8ByteSize] at this
  have hmem1 := hne A hrecA g1 hm1
  have hmem2 := hne B hrecB g2 hm2
  have hmem3 := hne C hrecC g3 hm3
  set c := stringsToUpper (stringsTrimSpace code) with hc
  have htest : ∀ (g : BloomFilter) (D : List String) (i : Nat), g.extra = extras i →
      (∀ s, s ∈ g.added ↔ s ∈ D) → g.TestString c = (decide (c ∈ D) || extras i c) := by
    intro g D i hx hmm
    unfold BloomFilter.TestString
    rw [hx]
    have hcon : g.added.contains c = decide (c ∈ D) := by
      rw [show g.added.contains c = List.elem c g.added from rfl, List.elem_eq_mem,
        decide_eq_decide.mpr (hmm c)]
    rw [hcon]
  have ht1 := htest g1 A 0 hex1 hmem1
  have ht2 := htest g2 B 1 hex2 hmem2
  have ht3 := htest g3 C 2 hex3 hmem3
  have hs1 : searchFileForCoupon [(p1, A), (p2, B), (p3, C)] false p1 c
      = Except.ok (decide (c ∈ A)) := by
    rw [searchFile_ok _ p1 c A (by simp [List.lookup]),
      any_trim_beq_eq_mem A c (fun r hr => (hrecA r hr).1)]
  have hs2 : searchFileForCoupon [(p1, A), (p2, B), (p3, C)] false p2 c
      = Except.ok (decide (c ∈ B)) := by
    rw [searchFile_ok _ p2 c B
        (by simp [List.lookup, beq_eq_false_iff_ne.mpr (Ne.symm hp12)]),
      any_trim_beq_eq_mem B c (fun r hr => (hrecB r hr).1)]
  have hs3 : searchFileForCoupon [(p1, A), (p2, B), (p3, C)] false p3 c
      = Except.ok (decide (c ∈ C)) := by
    rw [searchFile_ok _ p3 c C
        (by simp [List.lookup, beq_eq_false_iff_ne.mpr (Ne.symm hp13),
          beq_eq_false_iff_ne.mpr (Ne.symm hp23)]),
      any_trim_beq_eq_mem C c (fun r hr => (hrecC r hr).1)]
  by_cases hgate : (decide (c.utf8ByteSize < 8) || decide (10 < c.utf8ByteSize)) = true
  · have hcnt : [A, B, C].countP (fun D => decide (c ∈ D)) = 0 := by
      apply List.countP_eq_zero.mpr
      intro D hD
      simp only [decide_eq_true_eq]
      intro hcD
      have hsz : 8 ≤ c.utf8ByteSize ∧ c.utf8ByteSize ≤ 10 := by
        rcases List.mem_cons.mp hD with rfl | hD'
        · exact ⟨(hrecA c hcD).2.1, (hrecA c hcD).2.2⟩
        · rcases List.mem_cons.mp hD' with rfl | hD''
          · exact ⟨(hrecB c hcD).2.1, (hrecB c hcD).2.2⟩
          · rcases List.mem_cons.mp hD'' with rfl | h0
            · exact ⟨(hrecC c hcD).2.1, (hrecC c hcD).2.2⟩
            · exact absurd h0 (List.not_mem_nil D)
      simp only [Bool.or_eq_true, decide_eq_true_eq] at hgate
      omega
    simp only [Validator.IsValid, ← hc]
    rw [if_pos hgate, hcnt]
    simp
  · simp only [Validator.IsValid, ← hc]
    rw [if_neg hgate]
    dsimp only
    have hmiss0 : (NewValidator.cache.Get c).1.2 = false := rfl
    rw [if_neg (by rw [hmiss0]; exact Bool.false_ne_true)]
    rw [if_neg (by simp)]
    rw [apply_ite IsValidResult.result]
    dsimp only
    rw [quorum_eval g1 g2 g3 c (decide (c ∈ A)) (decide (c ∈ B)) (decide (c ∈ C))
      (extras 0 c) (extras 1 c) (extras 2 c) _ ht1 ht2 ht3 hs1 hs2 hs3]
    have hsum : [A, B, C].countP (fun D => decide (c ∈ D))
        = (if decide (c ∈ A) = true then 1 else 0) + (if decide (c ∈ B) = true then 1 else 0)
          + (if decide (c ∈ C) = true then 1 else 0) := by
      simp only [List.countP_cons, List.countP_nil]
      split_ifs <;> omega
    rw [hsum]
    exact of_eq (decide_eq_true_eq)

/-- C3 (amended): the confirmatory scan trims each record but does not
change its case: it reports a match exactly when some trimmed record
equals the (already normalized) target.  The amendment: the claim said
the scan applies the same casing rule as input normalization; the code
only trims, so a record differing from the target in letter case alone
is NOT found (see the counterexample). -/
theorem searchFile_trim_only_match (fs : FS) (p t : String) (lines : List String)
    (h : fs.lookup p = some lines) :
    searchFileForCoupon fs false p t = Except.ok true ↔ ∃ r ∈ lines, stringsTrimSpace r = t := by
  rw [searchFile_ok fs p t lines h]
  constructor
  · intro hok
    have hany : lines.any (fun l => stringsTrimSpace l == t) = true := by
      simpa using hok
    obtain ⟨l, hl, hbeq⟩ := List.any_eq_true.mp hany
    exact ⟨l, hl, eq_of_beq hbeq⟩
  · rintro ⟨r, hr, hrt⟩
    have hany : lines.any (fun l => stringsTrimSpace l == t) = true :=
      List.any_eq_true.mpr ⟨r, hr, by rw [hrt]; exact beq_self_eq_true t⟩
    rw [hany]

theorem searchFile_trim_only_match_witness :
    ([("f", [" SAVE1234 "])] : FS).lookup "f" = some [" SAVE1234 "]
    ∧ searchFileForCoupon [("f", [" SAVE1234 "])] false "f" "SAVE1234" = Except.ok true :=
  ⟨rfl, (searchFile_trim_only_match [("f", [" SAVE1234 "])] "f" "SAVE1234" [" SAVE1234 "]
      rfl).mpr ⟨" SAVE1234 ", by decide, by decide⟩⟩

/-- C3 counterexample: the record differs from the target only in
letter case (uppercase of its trim equals the target), yet the scan
reports it as not found. -/
theorem searchFile_case_normalization_counterexample :
    stringsToUpper (stringsTrimSpace "validabc") = "VALIDABC"
    ∧ searchFileForCoupon [("f", ["validabc"])] false "f" "VALIDABC" = Except.ok false :=
  ⟨rfl, rfl⟩

theorem isValid_length_gate_witness :
    ((stringsToUpper (stringsTrimSpace "SHORT")).utf8ByteSize < 8
      ∨ 10 < (stringsToUpper (stringsTrimSpace "SHORT")).utf8ByteSize)
    ∧ NewValidator.IsValid [] false "SHORT" = ⟨false, NewValidator, 0⟩ :=
  ⟨by decide, isValid_length_gate [] false NewValidator "SHORT" (by decide)⟩

/-- C4 counterexample: the raw string of byte length 12 validates to
true in a loaded validator, because the length gate applies to the
normalized (trimmed) form of length 8. -/
theorem isValid_length_gate_raw_counterexample :
    ("  VALIDABC  ").utf8ByteSize = 12
    ∧ (((NewValidator.LoadFromFiles [("f1", ["VALIDABC"]), ("f2", ["VALIDABC"])] false
          (fun _ _ => false) ["f1", "f2"]).1).IsValid
          [("f1", ["VALIDABC"]), ("f2", ["VALIDABC"])] false "  VALIDABC  ").result = true :=
  ⟨rfl, rfl⟩

/-- C5 counterexample: with capacity 0, a single Set stores one entry,
so the size exceeds the capacity. -/
theorem lru_capacity_zero_counterexample :
    ¬ (((newLRUCache 0).Set "COUPONAA" true).order.length ≤ (newLRUCache 0).capacity) := by
  decide

theorem lru_capacity_bound_and_eviction_witness :
    ((runOps (newLRUCache 1) [CacheOp.set "AAAACODE" true]).Set "BBBBCODE" false).order
        = [⟨"BBBBCODE", false⟩]
    ∧ (((runOps (newLRUCache 1) [CacheOp.set "AAAACODE" true]).Set "BBBBCODE" false).Get
        "AAAACODE").1.2 = false := by
  have h := lru_capacity_bound_and_eviction 1 (by decide) [CacheOp.set "AAAACODE" true]
    "BBBBCODE" false
  obtain ⟨-, h2⟩ := h
  obtain ⟨ha, -, hc⟩ := h2 (by decide) (by decide) ⟨"AAAACODE", true⟩ (by decide)
  refine ⟨?_, hc⟩
  rw [ha]
  decide

/-- C2 (code bug evaluation): at the failing input — a cancelled
context and one existing nonempty file — `LoadFromFiles` returns an
error, yet the validator `filePaths` have already been replaced: the
observable state changed although the load failed, so the load is not
all-or-nothing. -/
theorem loadFromFiles_commits_partial_state_on_error :
    ((NewValidator.LoadFromFiles [("f1", ["AAAA1111"])] true (fun _ _ => false) ["f1"]).2).isSome
        = true
    ∧ (NewValidator.LoadFromFiles [("f1", ["AAAA1111"])] true (fun _ _ => false)
        ["f1"]).1.filePaths = ["f1"]
    ∧ NewValidator.filePaths = [] :=
  ⟨rfl, rfl, rfl⟩

theorem isValid_scan_error_not_confirmed_witness :
    ((NewValidator.LoadFromFiles [("f1", ["VALIDABCD"]), ("f2", ["VALIDABCD"])] false
        (fun _ _ => false) ["f1", "f2"]).1.cache.Get
        (stringsToUpper (stringsTrimSpace "VALIDABCD"))).1.2 = false
    ∧ ((NewValidator.LoadFromFiles [("f1", ["VALIDABCD"]), ("f2", ["VALIDABCD"])] false
        (fun _ _ => false) ["f1", "f2"]).1.IsValid
        [("f1", ["VALIDABCD"]), ("f2", ["VALIDABCD"])] true "VALIDABCD").result = false :=
  ⟨rfl, isValid_scan_error_not_confirmed _ _ _ rfl⟩

theorem isValid_no_filters_no_cache_write_witness :
    (NewValidator.bloomFilters = []
      ∧ 8 ≤ (stringsToUpper (stringsTrimSpace "VALIDABC")).utf8ByteSize
      ∧ (stringsToUpper (stringsTrimSpace "VALIDABC")).utf8ByteSize ≤ 10
      ∧ (NewValidator.cache.Get (stringsToUpper (stringsTrimSpace "VALIDABC"))).1.2 = false)
    ∧ NewValidator.IsValid [] false "VALIDABC" = ⟨false, NewValidator, 0⟩ :=
  ⟨⟨rfl, by decide, by decide, rfl⟩,
    isValid_no_filters_no_cache_write [] false NewValidator "VALIDABC" rfl (by decide)
      (by decide) rfl⟩

theorem isValid_quorum_of_loaded_witness :
    (NewValidator.LoadFromFiles
        [("couponbase1", ["VALIDABC", "TESTCODE", "COUPON01"]),
         ("couponbase2", ["VALIDABC", "TESTCODE", "SPECIAL9"]),
         ("couponbase3", ["VALIDABC", "SPECIAL9", "COUPON03"])] false (fun _ _ => false)
        ["couponbase1", "couponbase2", "couponbase3"]).2 = none
    ∧ ((NewValidator.LoadFromFiles
        [("couponbase1", ["VALIDABC", "TESTCODE", "COUPON01"]),
         ("couponbase2", ["VALIDABC", "TESTCODE", "SPECIAL9"]),
         ("couponbase3", ["VALIDABC", "SPECIAL9", "COUPON03"])] false (fun _ _ => false)
        ["couponbase1", "couponbase2", "couponbase3"]).1.IsValid
        [("couponbase1", ["VALIDABC", "TESTCODE", "COUPON01"]),
         ("couponbase2", ["VALIDABC", "TESTCODE", "SPECIAL9"]),
         ("couponbase3", ["VALIDABC", "SPECIAL9", "COUPON03"])] false "VALIDABC").result = true
    ∧ ((NewValidator.LoadFromFiles
        [("couponbase1", ["VALIDABC", "TESTCODE", "COUPON01"]),
         ("couponbase2", ["VALIDABC", "TESTCODE", "SPECIAL9"]),
         ("couponbase3", ["VALIDABC", "SPECIAL9", "COUPON03"])] false (fun _ _ => false)
        ["couponbase1", "couponbase2", "couponbase3"]).1.IsValid
        [("couponbase1", ["VALIDABC", "TESTCODE", "COUPON01"]),
         ("couponbase2", ["VALIDABC", "TESTCODE", "SPECIAL9"]),
         ("couponbase3", ["VALIDABC", "SPECIAL9", "COUPON03"])] false "TESTCODE").result = true
    ∧ ((NewValidator.LoadFromFiles
        [("couponbase1", ["VALIDABC", "TESTCODE", "COUPON01"]),
         ("couponbase2", ["VALIDABC", "TESTCODE", "SPECIAL9"]),
         ("couponbase3", ["VALIDABC", "SPECIAL9", "COUPON03"])] false (fun _ _ => false)
        ["couponbase1", "couponbase2", "couponbase3"]).1.IsValid
        [("couponbase1", ["VALIDABC", "TESTCODE", "COUPON01"]),
         ("couponbase2", ["VALIDABC", "TESTCODE", "SPECIAL9"]),
         ("couponbase3", ["VALIDABC", "SPECIAL9", "COUPON03"])] false "COUPON01").result = false
    ∧ ((NewValidator.LoadFromFiles
        [("couponbase1", ["VALIDABC", "TESTCODE", "COUPON01"]),
         ("couponbase2", ["VALIDABC", "TESTCODE", "SPECIAL9"]),
         ("couponbase3", ["VALIDABC", "SPECIAL9", "COUPON03"])] false (fun _ _ => false)
        ["couponbase1", "couponbase2", "couponbase3"]).1.IsValid
        [("couponbase1", ["VALIDABC", "TESTCODE", "COUPON01"]),
         ("couponbase2", ["VALIDABC", "TESTCODE", "SPECIAL9"]),
         ("couponbase3", ["VALIDABC", "SPECIAL9", "COUPON03"])] false "NOTEXIST").result
        = false := by
  have hv := isValid_quorum_of_loaded "couponbase1" "couponbase2" "couponbase3"
    ["VALIDABC", "TESTCODE", "COUPON01"] ["VALIDABC", "TESTCODE", "SPECIAL9"]
    ["VALIDABC", "SPECIAL9", "COUPON03"] (fun _ _ => false) "VALIDABC"
    (by decide) (by decide) (by decide) (by decide)
  have ht := isValid_quorum_of_loaded "couponbase1" "couponbase2" "couponbase3"
    ["VALIDABC", "TESTCODE", "COUPON01"] ["VALIDABC", "TESTCODE", "SPECIAL9"]
    ["VALIDABC", "SPECIAL9", "COUPON03"] (fun _ _ => false) "TESTCODE"
    (by decide) (by decide) (by decide) (by decide)
  have hc := isValid_quorum_of_loaded "couponbase1" "couponbase2" "couponbase3"
    ["VALIDABC", "TESTCODE", "COUPON01"] ["VALIDABC", "TESTCODE", "SPECIAL9"]
    ["VALIDABC", "SPECIAL9", "COUPON03"] (fun _ _ => false) "COUPON01"
    (by decide) (by decide) (by decide) (by decide)
  have hn := isValid_quorum_of_loaded "couponbase1" "couponbase2" "couponbase3"
    ["VALIDABC", "TESTCODE", "COUPON01"] ["VALIDABC", "TESTCODE", "SPECIAL9"]
    ["VALIDABC", "SPECIAL9", "COUPON03"] (fun _ _ => false) "NOTEXIST"
    (by decide) (by decide) (by decide) (by decide)
  refine ⟨hv.1, hv.2.mpr (by decide), ht.2.mpr (by decide),
    Bool.eq_false_iff.mpr (fun hx => ?_), Bool.eq_false_iff.mpr (fun hx => ?_)⟩
  · exact absurd (hc.2.mp hx) (by decide)
  · exact absurd (hn.2.mp hx) (by decide)

end KartChallenge
